import Mathlib

/-!
# Verification of the noteboks LSP indexing core

Shallow embedding of `src/lsp/noteboks-lsp/src/index.rs` and the hover
handler of `src/lsp/noteboks-lsp/src/main.rs`.

Modelling conventions:
* Rust `String`/`&str` are Lean `String`; character-level operations work on
  `String.data` (a `List Char`).  The regex character class `\w` is modelled
  as ASCII alphanumeric (the only characters the spec's examples exercise).
* Filesystem paths are modelled by their final component (a file name
  string), which is all `NoteID::from_path` / `NoteKind::from_path` inspect.
  `Path::file_name`, `Path::file_stem` and `Path::extension` follow the Rust
  standard-library rules for a single component: the stem/extension split is
  at the last dot, except that a leading-dot-only name has no extension, and
  `""`, `"."`, `".."` have no file name.
* The tree-sitter parser and the `lsp_textdocument` edit applier are external
  libraries; they enter the embedding as explicit function parameters
  (`parse`, `updateDoc`).  A parsed `Tree` is abstracted to the data the
  indexer queries from it: the list of structural `link` nodes, each with the
  span of the whole node and the optional span of its `uri` sub-field.
  Source positions are abstracted to character offsets into the buffer.
* `BTreeMap<NoteID, Note>` is an association list with key-replacing insert;
  `HashSet<NoteID>` is a duplicate-free list built by insert-if-absent.
-/

namespace Noteboks

/-- `NoteKind` from index.rs: closed enumeration of the five note kinds. -/
inductive NoteKind where
  | note
  | article
  | list
  | index
  | dump
deriving DecidableEq

/-- `NoteKind::from_str` from index.rs (lines 28-38). -/
def NoteKind.fromStr : String → Option NoteKind
  | "note" => some .note
  | "article" => some .article
  | "list" => some .list
  | "index" => some .index
  | "dump" => some .dump
  | _ => none

/-- `NoteKind::to_str` from index.rs (lines 40-48). -/
def NoteKind.toStr : NoteKind → String
  | .note => "note"
  | .article => "article"
  | .list => "list"
  | .index => "index"
  | .dump => "dump"

/-- Split a file name at its last dot: `some (before, after)` when a dot
exists, `none` otherwise.  Helper for the Rust `file_stem`/`extension`
rules. -/
def lastDotSplit : List Char → Option (List Char × List Char)
  | [] => none
  | c :: cs =>
    match lastDotSplit cs with
    | some p => some (c :: p.1, p.2)
    | none => if c = '.' then some ([], cs) else none

/-- Rust `Path::file_name` restricted to a single path component:
`""`, `"."` and `".."` have no file name. -/
def fileNameOf (s : String) : Option String :=
  if s = "" ∨ s = "." ∨ s = ".." then none else some s

/-- Rust `Path::extension`: the part after the last dot of the file name,
none when there is no dot or when the only dot is leading. -/
def extensionOf (s : String) : Option String :=
  (fileNameOf s).bind fun f =>
    match lastDotSplit f.data with
    | some p => if p.1 = [] then none else some (String.mk p.2)
    | none => none

/-- Rust `Path::file_stem`: the part before the last dot of the file name,
or the whole file name when there is no dot or the only dot is leading. -/
def fileStemOf (s : String) : Option String :=
  (fileNameOf s).map fun f =>
    match lastDotSplit f.data with
    | some p => if p.1 = [] then f else String.mk p.1
    | none => f

/-- `NoteKind::from_path` from index.rs (lines 50-53). -/
def NoteKind.from_path (p : String) : Option NoteKind :=
  (extensionOf p).bind NoteKind.fromStr

/-- `NoteID` from index.rs: the (name, kind) identity key of a note. -/
structure NoteID where
  name : String
  kind : NoteKind
deriving DecidableEq

/-- `NoteID::from_path` from index.rs (lines 67-75). -/
def NoteID.from_path (p : String) : Option NoteID :=
  (fileStemOf p).bind fun stem =>
    (NoteKind.from_path p).map fun kind => NoteID.mk stem kind

/-- `NoteID::to_filename` from index.rs (lines 77-80). -/
def NoteID.to_filename (id : NoteID) : String :=
  id.name ++ "." ++ id.kind.toStr

/-- The regex name character class `[_\-\?\:\/\\\w\d ]` from
`NoteID::from_link`. -/
def nameChar (c : Char) : Bool :=
  c.isAlphanum || c = '_' || c = '-' || c = '?' || c = ':' ||
    c = '/' || c = '\\' || c = ' '

/-- The regex whitespace class `\s`. -/
def wsChar (c : Char) : Bool :=
  c = ' ' || c = '\t' || c = '\n' || c = '\x0b' || c = '\x0c' || c = '\r'

/-- Rust `str::trim` (only whitespace characters at either end are
removed). -/
def trimWs (cs : List Char) : List Char :=
  ((cs.dropWhile wsChar).reverse.dropWhile wsChar).reverse

/-- The five kind keywords accepted inside parentheses by the
`NoteID::from_link` regex, with the kinds `NoteKind::from_str` maps them
to. -/
def kindKeywords : List (String × NoteKind) :=
  [("note", .note), ("article", .article), ("list", .list),
   ("index", .index), ("dump", .dump)]

/-- The `name` capture of the `from_link` regex against the text left of the
kind group: the greedy maximal prefix of name-class characters, matching
only when it is non-empty and followed by whitespace alone, then trimmed as
`name.trim()` does. -/
def linkNameOf (rest : List Char) : Option String :=
  let nm := rest.takeWhile nameChar
  if !nm.isEmpty && (rest.dropWhile nameChar).all wsChar then
    some (String.mk (trimWs nm))
  else none

/-- `NoteID::from_link` from index.rs (lines 82-98): the anchored regex
`^(?<name>[_\-\?\:\/\\\w\d ]+)\s*(?<kind>(?:\((?:note|article|list|index|dump)\))?)$`.
The optional kind group matches only a parenthesized recognized keyword, so
the whole match fails on any other parenthesized suffix; `unwrap_or(Note)`
applies when the kind group is empty. -/
def NoteID.from_link (link : String) : Option NoteID :=
  let cs := link.data
  match kindKeywords.find? (fun kw => ('(' :: kw.1.data ++ [')']).isSuffixOf cs) with
  | some kw =>
      (linkNameOf (cs.take (cs.length - (kw.1.data.length + 2)))).map
        fun nm => NoteID.mk nm kw.2
  | none =>
      (linkNameOf cs).map fun nm => NoteID.mk nm .note

/-- A half-open character-offset span `[start, stop)` in a buffer,
abstracting tree-sitter node positions. -/
structure Span where
  start : Nat
  stop : Nat
deriving DecidableEq

/-- A structural `link` node of a parsed tree: the span of the whole node
and, when the grammar produced one, the span of its `uri` sub-field. -/
structure LinkNode where
  span : Span
  uri : Option Span
deriving DecidableEq

/-- A parsed tree, abstracted to the data the indexer queries from it: its
`link` nodes in document order. -/
structure Tree where
  links : List LinkNode
deriving DecidableEq

/-- `lsp_textdocument::FullTextDocument`, reduced to the fields the indexer
reads. -/
structure FullTextDocument where
  languageId : String
  version : Int
  content : String
deriving DecidableEq

/-- `lsp_types::Url`, reduced to the result of `Url::to_file_path` (none for
a non-file URI), the only thing the indexer extracts from it. -/
structure Url where
  filePath : Option String
deriving DecidableEq

/-- `NoteID::from_uri` from index.rs (lines 62-65). -/
def NoteID.from_uri (u : Url) : Option NoteID :=
  u.filePath.bind NoteID.from_path

/-- `doc.get_content(Some(range))` / byte-range slicing: the buffer text
between two character offsets. -/
def sliceStr (s : String) (a b : Nat) : String :=
  String.mk ((s.data.drop a).take (b - a))

/-- Slice a buffer by a span. -/
def sliceSpan (s : String) (sp : Span) : String :=
  sliceStr s sp.start sp.stop

/-- One LSP content-change event (the indexer forwards these opaquely to the
external document updater). -/
structure TextDocumentContentChangeEvent where
  range : Option (Span × Span)
  text : String
deriving DecidableEq

/-- `lsp_types::TextDocumentItem`, reduced to the fields `handle_open`
reads. -/
structure TextDocumentItem where
  uri : Url
  languageId : String
  version : Int
  text : String
deriving DecidableEq

/-- `lsp_types::VersionedTextDocumentIdentifier`. -/
structure VersionedTextDocumentIdentifier where
  uri : Url
  version : Int
deriving DecidableEq

/-- `Note` from index.rs (lines 107-112). -/
structure Note where
  id : NoteID
  document : Option FullTextDocument
  tree : Option Tree
  outlinks : List NoteID
deriving DecidableEq

/-- `Note::new` from index.rs (lines 115-122). -/
def Note.new (id : NoteID) : Note :=
  { id := id, document := none, tree := none, outlinks := [] }

/-- `Note::of_file` from index.rs (lines 124-137), with the file read
externalized: the file's path and its successfully read content are given.
The language tag is the tree-sitter-org grammar name. -/
def Note.of_file (path content : String) : Option Note :=
  (NoteID.from_path path).map fun id =>
    { Note.new id with
      document := some { languageId := "org", version := 0, content := content } }

/-- `Note::get_tree_and_doc` from index.rs (lines 139-143). -/
def Note.get_tree_and_doc (n : Note) : Option (Tree × FullTextDocument) :=
  n.tree.bind fun t => n.document.map fun d => (t, d)

/-- The query loop of `Note::update_links` (index.rs lines 150-174): for
each `link` node carrying a `uri` sub-field, slice the buffer at the
sub-field's span and resolve it with `NoteID::from_link`; unresolved slices
are dropped. -/
def linkTargets (t : Tree) (content : String) : List NoteID :=
  t.links.filterMap fun l => l.uri.bind fun u => NoteID.from_link (sliceSpan content u)

/-- The link identities `update_links` collects for a note: empty when the
note lacks a tree or a buffer. -/
def Note.rawLinks (n : Note) : List NoteID :=
  match n.get_tree_and_doc with
  | some (t, d) => linkTargets t d.content
  | none => []

/-- `HashSet` built by clearing and inserting each element in order
(index.rs lines 177-180). -/
def dedupInsertAll (l : List NoteID) : List NoteID :=
  l.foldl (fun acc id => if id ∈ acc then acc else acc ++ [id]) []

/-- `Note::update_links` from index.rs (lines 145-181): replace `outlinks`
wholesale with the freshly collected link set. -/
def Note.update_links (n : Note) : Note :=
  { n with outlinks := dedupInsertAll n.rawLinks }

/-- `BTreeMap::get`: look a key up in the association list. -/
def mapGet : List (NoteID × Note) → NoteID → Option Note
  | [], _ => none
  | (k', v') :: rest, k => if k' = k then some v' else mapGet rest k

/-- `BTreeMap::insert` / in-place mutation through `get_mut`: replace the
binding of the key, or add one. -/
def mapPut : List (NoteID × Note) → NoteID → Note → List (NoteID × Note)
  | [], k, v => [(k, v)]
  | (k', v') :: rest, k, v =>
    if k' = k then (k, v) :: rest else (k', v') :: mapPut rest k v

/-- `Index` from index.rs (lines 101-105); the parser handle lives outside
the state as the explicit `parse` parameter of the operations. -/
structure Index where
  root : String
  notes : List (NoteID × Note)
deriving DecidableEq

/-- `Index::new` from index.rs (lines 185-193). -/
def Index.new : Index :=
  { root := "/Users/zacgarby/Documents/Vault", notes := [] }

/-- `Index::note_at_uri` from index.rs (lines 210-213). -/
def Index.note_at_uri (ix : Index) (uri : Url) : Option Note :=
  (NoteID.from_uri uri).bind fun id => mapGet ix.notes id

/-- `Index::update_tree` from index.rs (lines 245-263).  `parse` is the
external tree-sitter parser, `parse content oldTree`; the code calls it as
`parser.parse(content, None)` — the second argument is the literal `None`,
never the note's previous tree.  On a known id the new tree is stored and
`update_links` runs; on an unknown id the call fails leaving the index
unchanged. -/
def Index.update_tree (parse : String → Option Tree → Option Tree)
    (ix : Index) (id : NoteID) : Index × Bool :=
  let new_tree : Option Tree :=
    (mapGet ix.notes id).bind fun note =>
      note.document.bind fun doc => parse doc.content none
  match mapGet ix.notes id with
  | some note =>
      let note' := Note.update_links { note with tree := new_tree }
      ({ ix with notes := mapPut ix.notes id note' }, true)
  | none => (ix, false)

/-- `Index::handle_open` from index.rs (lines 220-224): the received
document is converted and then discarded; the index is not touched and the
call reports `false`. -/
def Index.handle_open (ix : Index) (document : TextDocumentItem) : Index × Bool :=
  let _doc : FullTextDocument :=
    { languageId := document.languageId, version := document.version,
      content := document.text }
  (ix, false)

/-- The `if let Some(doc) = note.document.as_mut() { doc.update(..) }` step
of `handle_edit`: update the buffer in place when one is present. -/
def editNoteDoc
    (updateDoc : FullTextDocument → List TextDocumentContentChangeEvent → Int → FullTextDocument)
    (changes : List TextDocumentContentChangeEvent) (version : Int) (note : Note) : Note :=
  match note.document with
  | some doc => { note with document := some (updateDoc doc changes version) }
  | none => note

/-- `Index::handle_edit` from index.rs (lines 226-243).  `updateDoc` is the
external `FullTextDocument::update` (applied to the change batch and the new
version).  The note is found by the URI-derived key; its buffer, when
present, is updated in place; then `update_tree` runs on the note's stored
id. -/
def Index.handle_edit (parse : String → Option Tree → Option Tree)
    (updateDoc : FullTextDocument → List TextDocumentContentChangeEvent → Int → FullTextDocument)
    (ix : Index) (document : VersionedTextDocumentIdentifier)
    (changes : List TextDocumentContentChangeEvent) : Index × Bool :=
  match NoteID.from_uri document.uri with
  | none => (ix, false)
  | some key =>
    match mapGet ix.notes key with
    | none => (ix, false)
    | some note =>
      let id := note.id
      let note' := editNoteDoc updateDoc changes document.version note
      Index.update_tree parse { ix with notes := mapPut ix.notes key note' } id

/-- One step of `Index::scan` (index.rs lines 195-208): a discovered file
that yields a note is inserted under its id and `update_tree` runs on that
id (the returned flag is discarded). -/
def Index.scan_insert (parse : String → Option Tree → Option Tree)
    (ix : Index) (path content : String) : Index :=
  match Note.of_file path content with
  | some note =>
      (Index.update_tree parse { ix with notes := mapPut ix.notes note.id note } note.id).1
  | none => ix

/-- Point membership in a span. -/
def inSpan (pos : Nat) (sp : Span) : Bool :=
  decide (sp.start ≤ pos) && decide (pos < sp.stop)

/-- `Backend::hover` from main.rs (lines 48-105), for a note the index
resolved for the request URI: descend to the `link` node containing the
cursor position; when one exists and has a `uri` sub-field, answer with the
buffer text sliced at that sub-field's span, otherwise answer nothing. -/
def hoverNote (n : Note) (pos : Nat) : Option String :=
  match n.get_tree_and_doc with
  | some (t, d) =>
    match t.links.find? (fun l => inSpan pos l.span) with
    | some l =>
      match l.uri with
      | some u => some (sliceSpan d.content u)
      | none => none
    | none => none
  | none => none

/-- Modelled from the spec: the spec's reading of `update_tree`
(sections 4.4 and 9: "pass the previous tree explicitly as an optional hint
into reparse"), in which the note's previously stored tree is handed to the
parser.  The code's `update_tree` (index.rs line 250) passes `None`
instead; this definition exists only to compare the two. -/
def Index.update_tree_hinted (parse : String → Option Tree → Option Tree)
    (ix : Index) (id : NoteID) : Index × Bool :=
  let new_tree : Option Tree :=
    (mapGet ix.notes id).bind fun note =>
      note.document.bind fun doc => parse doc.content note.tree
  match mapGet ix.notes id with
  | some note =>
      let note' := Note.update_links { note with tree := new_tree }
      ({ ix with notes := mapPut ix.notes id note' }, true)
  | none => (ix, false)

/-- Wellformedness of a parsed tree as tree-sitter produces it: each `uri`
sub-field lies inside its `link` node, and sibling `link` nodes occupy
disjoint spans in document order. -/
def Tree.wf (t : Tree) : Prop :=
  (∀ l ∈ t.links, ∀ u, l.uri = some u → l.span.start ≤ u.start ∧ u.stop ≤ l.span.stop) ∧
  t.links.Pairwise fun a b => a.span.stop ≤ b.span.start

instance (t : Tree) : Decidable (Tree.wf t) := by
  unfold Tree.wf
  infer_instance

/-- A note's derived data is in sync with its buffer: the stored tree is
what a fresh (hint-free) parse of the current buffer produces, and the
stored link set is what `update_links` computes from the stored tree and
buffer. -/
def Note.consistent (parse : String → Option Tree → Option Tree) (n : Note) : Prop :=
  n.tree = (n.document.bind fun doc => parse doc.content none) ∧
  n.outlinks = dedupInsertAll n.rawLinks

/-- Index invariant: entry keys are duplicate-free, every entry is stored
under its note's own id, and every entry is consistent. -/
def Index.Inv (parse : String → Option Tree → Option Tree) (ix : Index) : Prop :=
  (ix.notes.map Prod.fst).Nodup ∧
  ∀ p ∈ ix.notes, p.2.id = p.1 ∧ Note.consistent parse p.2

instance (parse : String → Option Tree → Option Tree) (n : Note) :
    Decidable (Note.consistent parse n) := by
  unfold Note.consistent
  infer_instance

instance (parse : String → Option Tree → Option Tree) (ix : Index) :
    Decidable (Index.Inv parse ix) := by
  unfold Index.Inv
  infer_instance

theorem mapGet_mapPut_self (m : List (NoteID × Note)) (k : NoteID) (v : Note) :
    mapGet (mapPut m k v) k = some v := by
  induction m with
  | nil => simp [mapPut, mapGet]
  | cons p rest ih =>
    obtain ⟨k', v'⟩ := p
    by_cases hk : k' = k
    · subst hk; simp [mapPut, mapGet]
    · simp [mapPut, mapGet, hk, ih]

theorem mapGet_none_ne (m : List (NoteID × Note)) (k : NoteID)
    (h : mapGet m k = none) : ∀ p ∈ m, p.1 ≠ k := by
  induction m with
  | nil => simp
  | cons q rest ih =>
    obtain ⟨k', v'⟩ := q
    by_cases hk : k' = k
    · subst hk; simp [mapGet] at h
    · intro p hp
      rcases List.mem_cons.mp hp with h1 | h1
      · subst h1; exact hk
      · exact ih (by simpa [mapGet, hk] using h) p h1

theorem mapGet_some_mem (m : List (NoteID × Note)) (k : NoteID) (v : Note)
    (h : mapGet m k = some v) : (k, v) ∈ m := by
  induction m with
  | nil => simp [mapGet] at h
  | cons q rest ih =>
    obtain ⟨k', v'⟩ := q
    by_cases hk : k' = k
    · subst hk
      simp [mapGet] at h
      subst h
      exact List.mem_cons_self _ _
    · exact List.mem_cons_of_mem _ (ih (by simpa [mapGet, hk] using h))

theorem fst_mem_of_mem_mapPut (m : List (NoteID × Note)) (k : NoteID) (v : Note)
    (p : NoteID × Note) (hp : p ∈ mapPut m k v) : p.1 = k ∨ p.1 ∈ m.map Prod.fst := by
  induction m with
  | nil =>
    simp [mapPut] at hp
    subst hp; left; rfl
  | cons q rest ih =>
    obtain ⟨k', v'⟩ := q
    by_cases hk : k' = k
    · subst hk
      simp only [mapPut, if_pos rfl] at hp
      rcases List.mem_cons.mp hp with h1 | h1
      · subst h1; left; rfl
      · right; exact List.mem_map_of_mem Prod.fst (List.mem_cons_of_mem _ h1)
    · simp only [mapPut, if_neg hk] at hp
      rcases List.mem_cons.mp hp with h1 | h1
      · subst h1; right; simp
      · rcases ih h1 with h2 | h2
        · left; exact h2
        · right; simp [h2]

theorem keys_mapPut_nodup (m : List (NoteID × Note)) (k : NoteID) (v : Note)
    (h : (m.map Prod.fst).Nodup) : ((mapPut m k v).map Prod.fst).Nodup := by
  induction m with
  | nil => simp [mapPut]
  | cons q rest ih =>
    obtain ⟨k', v'⟩ := q
    simp only [List.map_cons, List.nodup_cons] at h
    by_cases hk : k' = k
    · subst hk
      simpa [mapPut] using h
    · simp only [mapPut, if_neg hk, List.map_cons, List.nodup_cons]
      refine ⟨?_, ih h.2⟩
      intro hmem
      rcases List.mem_map.mp hmem with ⟨p, hp, hfst⟩
      rcases fst_mem_of_mem_mapPut rest k v p hp with h1 | h1
      · exact hk (hfst ▸ h1)
      · exact h.1 (hfst ▸ h1)

theorem mem_mapPut_of_nodup (m : List (NoteID × Note)) (k : NoteID) (v : Note)
    (hnd : (m.map Prod.fst).Nodup) (p : NoteID × Note) (hp : p ∈ mapPut m k v) :
    p = (k, v) ∨ (p ∈ m ∧ p.1 ≠ k) := by
  induction m with
  | nil =>
    simp [mapPut] at hp
    left; exact hp
  | cons q rest ih =>
    obtain ⟨k', v'⟩ := q
    simp only [List.map_cons, List.nodup_cons] at hnd
    by_cases hk : k' = k
    · subst hk
      simp only [mapPut, if_pos rfl] at hp
      rcases List.mem_cons.mp hp with h1 | h1
      · left; exact h1
      · right
        refine ⟨List.mem_cons_of_mem _ h1, ?_⟩
        intro hpk
        exact hnd.1 (hpk ▸ List.mem_map_of_mem Prod.fst h1)
    · simp only [mapPut, if_neg hk] at hp
      rcases List.mem_cons.mp hp with h1 | h1
      · subst h1; right; exact ⟨List.mem_cons_self _ _, hk⟩
      · rcases ih hnd.2 h1 with h2 | h2
        · left; exact h2
        · right; exact ⟨List.mem_cons_of_mem _ h2.1, h2.2⟩

theorem rawLinks_set_tree_outlinks (n : Note) (T : Option Tree) (x : List NoteID) :
    Note.rawLinks { n with tree := T, outlinks := x } = Note.rawLinks { n with tree := T } := rfl

theorem consistent_update_links (parse : String → Option Tree → Option Tree)
    (note : Note) (T : Option Tree)
    (hT : T = note.document.bind fun doc => parse doc.content none) :
    Note.consistent parse (Note.update_links { note with tree := T }) := by
  constructor
  · simpa [Note.update_links] using hT
  · simp [Note.update_links, rawLinks_set_tree_outlinks]

theorem editNoteDoc_id
    (updateDoc : FullTextDocument → List TextDocumentContentChangeEvent → Int → FullTextDocument)
    (changes : List TextDocumentContentChangeEvent) (version : Int) (note : Note) :
    (editNoteDoc updateDoc changes version note).id = note.id := by
  unfold editNoteDoc
  cases note.document <;> rfl

/-- After `update_tree` the whole index satisfies the invariant, provided
keys were well-formed and every entry other than the target was already
consistent. -/
theorem update_tree_establishes_inv (parse : String → Option Tree → Option Tree)
    (ix : Index) (id : NoteID)
    (hnd : (ix.notes.map Prod.fst).Nodup)
    (hkeys : ∀ p ∈ ix.notes, p.2.id = p.1)
    (hcons : ∀ p ∈ ix.notes, p.1 ≠ id → Note.consistent parse p.2) :
    Index.Inv parse (Index.update_tree parse ix id).1 := by
  unfold Index.update_tree
  cases h : mapGet ix.notes id with
  | none =>
    refine ⟨hnd, ?_⟩
    intro p hp
    exact ⟨hkeys p hp, hcons p hp (mapGet_none_ne ix.notes id h p hp)⟩
  | some note =>
    simp only
    refine ⟨keys_mapPut_nodup _ _ _ hnd, ?_⟩
    intro p hp
    rcases mem_mapPut_of_nodup ix.notes id _ hnd p hp with h1 | h1
    · subst h1
      constructor
      · exact hkeys (id, note) (mapGet_some_mem _ _ _ h)
      · refine consistent_update_links parse note _ ?_
        simp [h]
    · exact ⟨hkeys p h1.1, hcons p h1.1 h1.2⟩

example : Index.Inv (fun _ _ => none) Index.new := by decide
example : NoteID.from_link "Foo (article)" = some ⟨"Foo", .article⟩ := by decide
example : NoteID.from_link "Foo (bogus)" = none := by decide
example : NoteID.from_link "" = none := by decide
example : NoteID.from_link "B (list)" = some ⟨"B", .list⟩ := by decide
example : NoteKind.fromStr "art" = none := by decide
example : NoteID.from_path "Foo.note" = some ⟨"Foo", .note⟩ := by decide
example : NoteID.from_path "Foo.art" = none := by decide
example : NoteID.from_path "Foo.article" = some ⟨"Foo", .article⟩ := by decide
example : NoteID.to_filename ⟨"Foo", .article⟩ = "Foo.article" := by decide

/-- C1: for every note reachable in the index the (text, tree, links)
triple is mutually consistent; the empty starting index satisfies the
invariant, and every mutation — scan-insert, open, change — re-establishes
it before returning, because reparse and relink run synchronously inside
the mutating operation. -/
theorem C1_reachable_triple_consistent
    (parse : String → Option Tree → Option Tree)
    (updateDoc : FullTextDocument → List TextDocumentContentChangeEvent → Int → FullTextDocument)
    (ix : Index) (h : Index.Inv parse ix) :
    Index.Inv parse Index.new ∧
    (∀ path content, Index.Inv parse (Index.scan_insert parse ix path content)) ∧
    (∀ item, Index.Inv parse (Index.handle_open ix item).1) ∧
    (∀ document changes,
      Index.Inv parse (Index.handle_edit parse updateDoc ix document changes).1) := by
  obtain ⟨hnd, hall⟩ := h
  refine ⟨⟨by simp [Index.new], by simp [Index.new]⟩, ?_, ?_, ?_⟩
  · intro path content
    unfold Index.scan_insert
    cases hof : Note.of_file path content with
    | none => exact ⟨hnd, hall⟩
    | some note =>
      apply update_tree_establishes_inv
      · exact keys_mapPut_nodup _ _ _ hnd
      · intro p hp
        rcases mem_mapPut_of_nodup ix.notes note.id note hnd p hp with h1 | h1
        · subst h1; rfl
        · exact (hall p h1.1).1
      · intro p hp hne
        rcases mem_mapPut_of_nodup ix.notes note.id note hnd p hp with h1 | h1
        · exact absurd (congrArg Prod.fst h1) hne
        · exact (hall p h1.1).2
  · intro item
    exact ⟨hnd, hall⟩
  · intro document changes
    unfold Index.handle_edit
    split
    · exact ⟨hnd, hall⟩
    · rename_i key hu
      split
      · exact ⟨hnd, hall⟩
      · rename_i note hm
        have hid : note.id = key := (hall (key, note) (mapGet_some_mem _ _ _ hm)).1
        apply update_tree_establishes_inv
        · exact keys_mapPut_nodup _ _ _ hnd
        · intro p hp
          rcases mem_mapPut_of_nodup ix.notes key _ hnd p hp with h1 | h1
          · rw [h1]
            show (editNoteDoc updateDoc changes document.version note).id = key
            rw [editNoteDoc_id, hid]
          · exact (hall p h1.1).1
        · intro p hp hne
          rcases mem_mapPut_of_nodup ix.notes key _ hnd p hp with h1 | h1
          · exact absurd (hid ▸ congrArg Prod.fst h1) hne
          · exact (hall p h1.1).2

theorem C1_reachable_triple_consistent_witness :
    Index.Inv (fun _ _ => none) Index.new ∧
    Index.Inv (fun _ _ => none)
      (Index.scan_insert (fun _ _ => none) Index.new "Foo.note" "hello") :=
  ⟨by decide,
   (C1_reachable_triple_consistent (fun _ _ => none) (fun d _ _ => d) Index.new
     (by decide)).2.1 "Foo.note" "hello"⟩

/-- C3: the claim says `handle_open` unconditionally replaces or inserts
the identified note's buffer; the code builds the document value, discards
it, leaves the index untouched and reports `false`.  This theorem evaluates
the code: opening `Foo.note` with text `"hello"` on the empty index leaves
the index empty (no note for the identity) and reports failure. -/
theorem C3_handle_open_is_noop :
    (∀ (ix : Index) (item : TextDocumentItem), Index.handle_open ix item = (ix, false)) ∧
    mapGet (Index.handle_open Index.new
        { uri := { filePath := some "Foo.note" }, languageId := "org",
          version := 1, text := "hello" }).1.notes ⟨"Foo", .note⟩ = none :=
  ⟨fun _ _ => rfl, rfl⟩

/-- C4: `handle_edit` with a URI whose identity is not in the index fails
as a no-op — it returns `false` and the entire index state is unchanged. -/
theorem C4_unknown_identity_edit_noop
    (parse : String → Option Tree → Option Tree)
    (updateDoc : FullTextDocument → List TextDocumentContentChangeEvent → Int → FullTextDocument)
    (ix : Index) (document : VersionedTextDocumentIdentifier)
    (changes : List TextDocumentContentChangeEvent)
    (h : ix.note_at_uri document.uri = none) :
    Index.handle_edit parse updateDoc ix document changes = (ix, false) := by
  unfold Index.handle_edit
  split
  · rfl
  · rename_i key hu
    split
    · rfl
    · rename_i note hm
      exfalso
      unfold Index.note_at_uri at h
      rw [hu, Option.some_bind, hm] at h
      exact Option.noConfusion h

theorem C4_unknown_identity_edit_noop_witness :
    Index.new.note_at_uri { filePath := some "stray.txt" } = none ∧
    Index.handle_edit (fun _ _ => none) (fun d _ _ => d) Index.new
      { uri := { filePath := some "stray.txt" }, version := 2 } [] =
      (Index.new, false) :=
  ⟨by decide,
   C4_unknown_identity_edit_noop (fun _ _ => none) (fun d _ _ => d) Index.new
     { uri := { filePath := some "stray.txt" }, version := 2 } [] (by decide)⟩

/-- C7, counterexample: the claim says that whenever a note already holds a
parsed tree, that tree is passed into the parse call.  Concretely: take a
parser probe that answers only when it receives a hint, and a note holding
both a buffer and a tree; `update_tree` (which calls `parse(content, None)`,
index.rs line 250) then disagrees with the spec-modelled hinted variant, so
the stored hint is `None`, not the held tree. -/
theorem C7_previous_tree_hint_counterexample :
    Index.update_tree
        (fun _ hint => match hint with
          | some t => some t
          | none => none)
        { root := "r",
          notes := [(⟨"A", .note⟩,
            { id := ⟨"A", .note⟩,
              document := some { languageId := "org", version := 0, content := "x" },
              tree := some { links := [] },
              outlinks := [] })] }
        ⟨"A", .note⟩ ≠
      Index.update_tree_hinted
        (fun _ hint => match hint with
          | some t => some t
          | none => none)
        { root := "r",
          notes := [(⟨"A", .note⟩,
            { id := ⟨"A", .note⟩,
              document := some { languageId := "org", version := 0, content := "x" },
              tree := some { links := [] },
              outlinks := [] })] }
        ⟨"A", .note⟩ := by decide

/-- C7, amended: `update_tree` never passes the previously held tree into
the parse call — the parser is always invoked with no previous-tree hint,
so every reparse is a full parse and the result depends only on the
parser's hint-free behaviour. -/
theorem C7_reparse_always_full
    (parse : String → Option Tree → Option Tree) (ix : Index) (id : NoteID) :
    Index.update_tree parse ix id = Index.update_tree (fun s _ => parse s none) ix id := rfl

/-- C10: when the reparse of a known note fails (the parser returns none)
or the note has no buffer, `update_tree` stores an absent tree and the
synchronous relink clears the outgoing-link set — stale links from the
previous successful parse are never retained — while the operation still
reports success for the known identity. -/
theorem C10_failed_reparse_clears_links
    (parse : String → Option Tree → Option Tree) (ix : Index) (id : NoteID) (note : Note)
    (h1 : mapGet ix.notes id = some note)
    (h2 : (note.document.bind fun doc => parse doc.content none) = none) :
    (Index.update_tree parse ix id).2 = true ∧
    mapGet (Index.update_tree parse ix id).1.notes id =
      some (Note.update_links { note with tree := none }) ∧
    (Note.update_links { note with tree := none }).tree = none ∧
    (Note.update_links { note with tree := none }).outlinks = [] := by
  unfold Index.update_tree
  simp only [h1, Option.some_bind, h2]
  exact ⟨trivial, mapGet_mapPut_self _ _ _, rfl, rfl⟩

theorem C10_failed_reparse_clears_links_witness :
    (Index.update_tree (fun _ _ => none)
        { root := "r",
          notes := [(⟨"A", .note⟩,
            { id := ⟨"A", .note⟩,
              document := some { languageId := "org", version := 0, content := "x" },
              tree := some { links := [{ span := { start := 0, stop := 1 }, uri := none }] },
              outlinks := [⟨"B", .note⟩] })] }
        ⟨"A", .note⟩).2 = true ∧
    mapGet (Index.update_tree (fun _ _ => none)
        { root := "r",
          notes := [(⟨"A", .note⟩,
            { id := ⟨"A", .note⟩,
              document := some { languageId := "org", version := 0, content := "x" },
              tree := some { links := [{ span := { start := 0, stop := 1 }, uri := none }] },
              outlinks := [⟨"B", .note⟩] })] }
        ⟨"A", .note⟩).1.notes ⟨"A", .note⟩ =
      some (Note.update_links
        { id := ⟨"A", .note⟩,
          document := some { languageId := "org", version := 0, content := "x" },
          tree := none,
          outlinks := [⟨"B", .note⟩] }) ∧
    (Note.update_links
      { id := ⟨"A", .note⟩,
        document := some { languageId := "org", version := 0, content := "x" },
        tree := none,
        outlinks := [⟨"B", .note⟩] }).tree = none ∧
    (Note.update_links
      { id := ⟨"A", .note⟩,
        document := some { languageId := "org", version := 0, content := "x" },
        tree := none,
        outlinks := [⟨"B", .note⟩] }).outlinks = [] :=
  C10_failed_reparse_clears_links (fun _ _ => none)
    { root := "r",
      notes := [(⟨"A", .note⟩,
        { id := ⟨"A", .note⟩,
          document := some { languageId := "org", version := 0, content := "x" },
          tree := some { links := [{ span := { start := 0, stop := 1 }, uri := none }] },
          outlinks := [⟨"B", .note⟩] })] }
    ⟨"A", .note⟩
    { id := ⟨"A", .note⟩,
      document := some { languageId := "org", version := 0, content := "x" },
      tree := some { links := [{ span := { start := 0, stop := 1 }, uri := none }] },
      outlinks := [⟨"B", .note⟩] }
    (by decide) (by decide)

/-- C2, counterexample: the claim says `from_link "Foo (bogus)"` still
succeeds with kind defaulting to Note; in the code the regex's optional
kind group matches only the five recognized keywords, so on "Foo (bogus)"
the anchored match fails as a whole and the result is `none`. -/
theorem C2_unrecognized_keyword_fails :
    NoteID.from_link "Foo (bogus)" = none := by decide

/-- C2, amended: `from_link` follows the grammar `<name>` or
`<name> (<kind>)` with the name drawn from letters, digits, underscore,
hyphen, question mark, colon, the two slashes and space:
"Foo" maps to (Foo, Note), "Foo (article)" to (Foo, Article), the empty
string to none; an input whose parenthesized keyword is not one of the five
recognized kind keywords fails (none) — the Note default applies only when
no parenthesized kind is present. -/
theorem C2_from_link_grammar :
    NoteID.from_link "Foo" = some ⟨"Foo", .note⟩ ∧
    NoteID.from_link "Foo (article)" = some ⟨"Foo", .article⟩ ∧
    NoteID.from_link "" = none ∧
    NoteID.from_link "Foo (bogus)" = none := by decide

theorem mem_foldl_dedup (l acc : List NoteID) (x : NoteID) :
    x ∈ l.foldl (fun acc id => if id ∈ acc then acc else acc ++ [id]) acc ↔
      x ∈ acc ∨ x ∈ l := by
  induction l generalizing acc with
  | nil => simp
  | cons a rest ih =>
    simp only [List.foldl_cons]
    by_cases ha : a ∈ acc
    · rw [if_pos ha, ih]
      constructor
      · rintro (h | h)
        · exact Or.inl h
        · exact Or.inr (List.mem_cons_of_mem _ h)
      · rintro (h | h)
        · exact Or.inl h
        · rcases List.mem_cons.mp h with rfl | h
          · exact Or.inl ha
          · exact Or.inr h
    · rw [if_neg ha, ih]
      simp only [List.mem_append, List.mem_cons, List.mem_singleton]
      tauto

theorem mem_dedupInsertAll (l : List NoteID) (x : NoteID) :
    x ∈ dedupInsertAll l ↔ x ∈ l := by
  unfold dedupInsertAll
  rw [mem_foldl_dedup]
  simp

/-- C5: `update_links` on a note holding a tree and a buffer replaces the
outgoing-link set wholesale with exactly the identities obtained by
resolving, via `from_link`, the buffer text sliced at the `uri` sub-field
span of each structural link construct; unresolvable slices are dropped
silently, and a tree with zero link constructs yields the empty set. -/
theorem C5_update_links_extracts
    (n : Note) (t : Tree) (d : FullTextDocument)
    (ht : n.tree = some t) (hd : n.document = some d) :
    (Note.update_links n).outlinks = dedupInsertAll (linkTargets t d.content) ∧
    (∀ x, x ∈ (Note.update_links n).outlinks ↔
      ∃ l ∈ t.links, ∃ u, l.uri = some u ∧
        NoteID.from_link (sliceSpan d.content u) = some x) ∧
    (t.links = [] → (Note.update_links n).outlinks = []) := by
  have hraw : n.rawLinks = linkTargets t d.content := by
    unfold Note.rawLinks Note.get_tree_and_doc
    rw [ht, hd]
    rfl
  have hout : (Note.update_links n).outlinks = dedupInsertAll (linkTargets t d.content) := by
    unfold Note.update_links
    rw [hraw]
  refine ⟨hout, ?_, ?_⟩
  · intro x
    rw [hout, mem_dedupInsertAll]
    unfold linkTargets
    rw [List.mem_filterMap]
    constructor
    · rintro ⟨l, hl, hres⟩
      rcases Option.bind_eq_some.mp hres with ⟨u, hu, hfrom⟩
      exact ⟨l, hl, u, hu, hfrom⟩
    · rintro ⟨l, hl, u, hu, hfrom⟩
      exact ⟨l, hl, Option.bind_eq_some.mpr ⟨u, hu, hfrom⟩⟩
  · intro hnil
    rw [hout]
    unfold linkTargets
    rw [hnil]
    rfl

theorem C5_update_links_extracts_witness :
    (Note.update_links
      { id := ⟨"Doc", .note⟩,
        document := some { languageId := "org", version := 0, content := "A B (list)" },
        tree := some { links :=
          [{ span := { start := 0, stop := 1 }, uri := some { start := 0, stop := 1 } },
           { span := { start := 2, stop := 10 }, uri := some { start := 2, stop := 10 } }] },
        outlinks := [⟨"Stale", .dump⟩] }).outlinks =
      dedupInsertAll (linkTargets
        { links :=
          [{ span := { start := 0, stop := 1 }, uri := some { start := 0, stop := 1 } },
           { span := { start := 2, stop := 10 }, uri := some { start := 2, stop := 10 } }] }
        "A B (list)") ∧
    dedupInsertAll (linkTargets
      { links :=
        [{ span := { start := 0, stop := 1 }, uri := some { start := 0, stop := 1 } },
         { span := { start := 2, stop := 10 }, uri := some { start := 2, stop := 10 } }] }
      "A B (list)") = [⟨"A", .note⟩, ⟨"B", .list⟩] :=
  ⟨(C5_update_links_extracts _
      { links :=
        [{ span := { start := 0, stop := 1 }, uri := some { start := 0, stop := 1 } },
         { span := { start := 2, stop := 10 }, uri := some { start := 2, stop := 10 } }] }
      { languageId := "org", version := 0, content := "A B (list)" } rfl rfl).1,
   by decide⟩

theorem fromStr_isSome_iff (s : String) :
    (NoteKind.fromStr s).isSome ↔ s ∈ ["note", "article", "list", "index", "dump"] := by
  rw [NoteKind.fromStr.eq_def]
  split <;> simp_all

/-- C6, counterexample: the claim says the recognized extension set is
exactly {note, art, list, index, dump}; in the code `from_str` rejects
"art" and accepts "article", so a `.art` file resolves to no identity while
a `.article` file resolves. -/
theorem C6_art_extension_counterexample :
    NoteKind.fromStr "art" = none ∧
    NoteID.from_path "Foo.art" = none ∧
    NoteKind.fromStr "article" = some .article ∧
    NoteID.from_path "Foo.article" = some ⟨"Foo", .article⟩ := by decide

/-- C6, amended: the set of recognized note file extensions and link-suffix
keywords is exactly {note, article, list, index, dump}, mapping 1:1 onto
the five NoteKind values, and `from_path` succeeds precisely on paths whose
extension is one of these five strings. -/
theorem C6_recognized_extension_set :
    (∀ s : String, (NoteKind.fromStr s).isSome ↔
      s ∈ ["note", "article", "list", "index", "dump"]) ∧
    (∀ k : NoteKind, NoteKind.fromStr (NoteKind.toStr k) = some k) ∧
    (∀ p : String, (NoteID.from_path p).isSome ↔
      ∃ e, extensionOf p = some e ∧
        e ∈ ["note", "article", "list", "index", "dump"]) := by
  refine ⟨fromStr_isSome_iff, ?_, ?_⟩
  · intro k
    cases k <;> rfl
  · intro p
    unfold NoteID.from_path NoteKind.from_path fileStemOf extensionOf
    cases hf : fileNameOf p with
    | none => simp
    | some f =>
      cases hs : lastDotSplit f.data with
      | none => simp [hs]
      | some pr =>
        by_cases hp : pr.1 = []
        · simp [hs, hp]
        · simp [hs, hp, fromStr_isSome_iff]

theorem string_data_append (a b : String) : (a ++ b).data = a.data ++ b.data := by
  cases a
  cases b
  rfl

theorem lastDotSplit_eq_none (l : List Char) (h : '.' ∉ l) : lastDotSplit l = none := by
  induction l with
  | nil => rfl
  | cons c cs ih =>
    have hcs : lastDotSplit cs = none := ih fun hc => h (List.mem_cons_of_mem _ hc)
    have hc : ¬ c = '.' := fun hc => h (hc ▸ List.mem_cons_self _ _)
    simp [lastDotSplit, hcs, hc]

theorem lastDotSplit_append (l₁ l₂ : List Char) (h : '.' ∉ l₂) :
    lastDotSplit (l₁ ++ '.' :: l₂) = some (l₁, l₂) := by
  induction l₁ with
  | nil => simp [lastDotSplit, lastDotSplit_eq_none l₂ h]
  | cons c cs ih => simp [lastDotSplit, ih]

theorem path_concat_parts (name e : String)
    (hne : name.data ≠ []) (hedot : '.' ∉ e.data) (helen : e.data ≠ []) :
    fileStemOf (name ++ "." ++ e) = some name ∧
    extensionOf (name ++ "." ++ e) = some e := by
  have hdotdata : (".").data = ['.'] := rfl
  have hdata : (name ++ "." ++ e).data = name.data ++ '.' :: e.data := by
    rw [string_data_append, string_data_append, hdotdata]
    simp
  have h1 : 0 < name.data.length := List.length_pos.mpr hne
  have h2 : 0 < e.data.length := List.length_pos.mpr helen
  have hcond : ¬(name ++ "." ++ e = "" ∨ name ++ "." ++ e = "." ∨ name ++ "." ++ e = "..") := by
    rintro (h | h | h)
    · have hd : name.data ++ '.' :: e.data = [] := hdata ▸ congrArg String.data h
      simp at hd
    · have hd : name.data ++ '.' :: e.data = ['.'] := hdata ▸ congrArg String.data h
      have hlen := congrArg List.length hd
      simp only [List.length_append, List.length_cons, List.length_nil] at hlen
      omega
    · have hd : name.data ++ '.' :: e.data = ['.', '.'] := hdata ▸ congrArg String.data h
      have hlen := congrArg List.length hd
      simp only [List.length_append, List.length_cons, List.length_nil] at hlen
      omega
  have hfn : fileNameOf (name ++ "." ++ e) = some (name ++ "." ++ e) := by
    unfold fileNameOf
    rw [if_neg hcond]
  have hsplit : lastDotSplit (name.data ++ '.' :: e.data) = some (name.data, e.data) :=
    lastDotSplit_append _ _ hedot
  constructor
  · unfold fileStemOf
    rw [hfn]
    simp [hdata, hsplit, hne]
  · unfold extensionOf
    rw [hfn]
    simp [hdata, hsplit, hne]

/-- C8: for every recognized extension string e and every non-empty name
with no dot or path separator, `from_path ("name." ++ e)` yields the
identity (name, kind e); reconstructing the filename with `to_filename`
gives back "name." ++ e, resolving it yields the same identity, and its
extension is the same e. -/
theorem C8_path_roundtrip (name e : String) (k : NoteKind)
    (he : NoteKind.fromStr e = some k)
    (hne : name ≠ "")
    (hclean : ∀ c ∈ name.data, c ≠ '.' ∧ c ≠ '/') :
    NoteID.from_path (name ++ "." ++ e) = some ⟨name, k⟩ ∧
    NoteID.to_filename ⟨name, k⟩ = name ++ "." ++ e ∧
    NoteID.from_path (NoteID.to_filename ⟨name, k⟩) = some ⟨name, k⟩ ∧
    extensionOf (NoteID.to_filename ⟨name, k⟩) = some e := by
  have hne' : name.data ≠ [] := by
    intro hd
    apply hne
    cases name
    simp_all
  have hto : NoteKind.toStr k = e ∧ '.' ∉ e.data ∧ e.data ≠ [] := by
    rw [NoteKind.fromStr.eq_def] at he
    split at he <;>
      first
        | exact Option.noConfusion he
        | (obtain rfl := Option.some.inj he
           exact ⟨rfl, by decide, by decide⟩)
  obtain ⟨htoe, hedot, helen⟩ := hto
  obtain ⟨hstem, hext⟩ := path_concat_parts name e hne' hedot helen
  have hfrom : NoteID.from_path (name ++ "." ++ e) = some ⟨name, k⟩ := by
    unfold NoteID.from_path NoteKind.from_path
    rw [hstem, hext]
    simp [he]
  have htofn : NoteID.to_filename ⟨name, k⟩ = name ++ "." ++ e := by
    unfold NoteID.to_filename
    rw [htoe]
  refine ⟨hfrom, htofn, ?_, ?_⟩
  · rw [htofn]
    exact hfrom
  · rw [htofn]
    exact hext

theorem C8_path_roundtrip_witness :
    NoteID.from_path ("Foo" ++ "." ++ "article") = some ⟨"Foo", .article⟩ ∧
    NoteID.to_filename ⟨"Foo", .article⟩ = "Foo" ++ "." ++ "article" ∧
    NoteID.from_path (NoteID.to_filename ⟨"Foo", .article⟩) = some ⟨"Foo", .article⟩ ∧
    extensionOf (NoteID.to_filename ⟨"Foo", .article⟩) = some "article" :=
  C8_path_roundtrip "Foo" "article" .article (by decide) (by decide) (by decide)

theorem find_containing_link (pos : Nat) (ls : List LinkNode)
    (hpw : ls.Pairwise fun a b => a.span.stop ≤ b.span.start)
    (l : LinkNode) (hl : l ∈ ls) (hin : inSpan pos l.span = true) :
    ls.find? (fun x => inSpan pos x.span) = some l := by
  induction ls with
  | nil => simp at hl
  | cons x rest ih =>
    rcases List.mem_cons.mp hl with rfl | hl'
    · exact List.find?_cons_of_pos _ hin
    · have hxl : x.span.stop ≤ l.span.start := (List.pairwise_cons.mp hpw).1 l hl'
      have hxfalse : inSpan pos x.span = false := by
        unfold inSpan at hin ⊢
        simp only [Bool.and_eq_true, decide_eq_true_eq] at hin
        simp only [Bool.and_eq_false_iff, decide_eq_false_iff_not]
        omega
      rw [show (x :: rest).find? (fun y => inSpan pos y.span) =
            rest.find? (fun y => inSpan pos y.span) by
          simp [List.find?_cons, hxfalse]]
      exact ih (List.pairwise_cons.mp hpw).2 hl'

/-- C9: for an indexed note with a parsed tree and buffer (and a
wellformed, tree-sitter-shaped tree), a hover query at a position outside
every link construct returns no result, and a hover query at a position
inside a link construct's URI span returns exactly the literal URI text
sliced from the note's buffer. -/
theorem C9_hover_link_text
    (n : Note) (t : Tree) (d : FullTextDocument) (pos : Nat)
    (ht : n.tree = some t) (hd : n.document = some d) (hwf : Tree.wf t) :
    ((∀ l ∈ t.links, inSpan pos l.span = false) → hoverNote n pos = none) ∧
    (∀ l ∈ t.links, ∀ u, l.uri = some u → inSpan pos u = true →
      hoverNote n pos = some (sliceSpan d.content u)) := by
  have htd : n.get_tree_and_doc = some (t, d) := by
    unfold Note.get_tree_and_doc
    rw [ht, hd]
    rfl
  constructor
  · intro hout
    have hfind : t.links.find? (fun l => inSpan pos l.span) = none := by
      rw [List.find?_eq_none]
      intro x hx
      simp [hout x hx]
    simp [hoverNote, htd, hfind]
  · intro l hl u hu hin
    have hsub := hwf.1 l hl u hu
    have hinl : inSpan pos l.span = true := by
      unfold inSpan at hin ⊢
      simp only [Bool.and_eq_true, decide_eq_true_eq] at hin ⊢
      omega
    have hfind := find_containing_link pos t.links hwf.2 l hl hinl
    simp [hoverNote, htd, hfind, hu]

theorem C9_hover_link_text_witness :
    hoverNote
      { id := ⟨"Doc", .note⟩,
        document := some { languageId := "org", version := 0, content := "see A here" },
        tree := some { links :=
          [{ span := { start := 4, stop := 5 }, uri := some { start := 4, stop := 5 } }] },
        outlinks := [] } 4 =
      some (sliceSpan "see A here" { start := 4, stop := 5 }) ∧
    hoverNote
      { id := ⟨"Doc", .note⟩,
        document := some { languageId := "org", version := 0, content := "see A here" },
        tree := some { links :=
          [{ span := { start := 4, stop := 5 }, uri := some { start := 4, stop := 5 } }] },
        outlinks := [] } 9 = none ∧
    sliceSpan "see A here" { start := 4, stop := 5 } = "A" :=
  ⟨(C9_hover_link_text _
      { links := [{ span := { start := 4, stop := 5 }, uri := some { start := 4, stop := 5 } }] }
      { languageId := "org", version := 0, content := "see A here" } 4 rfl rfl
      (by decide)).2
      { span := { start := 4, stop := 5 }, uri := some { start := 4, stop := 5 } }
      (by decide) { start := 4, stop := 5 } rfl (by decide),
   (C9_hover_link_text _
      { links := [{ span := { start := 4, stop := 5 }, uri := some { start := 4, stop := 5 } }] }
      { languageId := "org", version := 0, content := "see A here" } 9 rfl rfl
      (by decide)).1 (by decide),
   by decide⟩

end Noteboks
